import Mathlib

/-
Shallow embedding of the distributed sample sort in src/SampleSort2.cpp and of
the single-process baseline in src/SequentialSort.cpp.

A record (one input line, a C++ std::string) is modelled as its sequence of
bytes, `List Nat`, ordered byte-wise lexicographically — the order of
std::string's operator< — which is the lexicographic `LinearOrder` on lists.

The MPI run is deterministic data flow: every process executes the same phase
sequence and all point-to-point transfers happen in a fixed rank order, so the
whole run is modelled as a pure function from the input dataset and the process
count to the list of per-process partitions.  Vector indexing (operator[]) is
partial; an out-of-range access is modelled as `none`.

The run is embedded twice.  The record-level phases (scatterPhase ...
gatherPhase, pipelineOutput) move records between ranks at record value,
eliding the codec; they are used for the claims whose facts are invariant
under that elision (record counts pair one receive with one send at every
site, and with one process nothing is ever serialized).  The transmitted
phases (scatterPhaseWire ... gatherPhaseWire, pipelineOutputWire) apply the
codec at every cross-rank transfer exactly where the program does: every
received record is rebuilt with string(buf.data()) (lines 136, 166, 196, 230,
257), which truncates it at its first 0 byte, while data a rank keeps for
itself is moved by direct copy and never serialized (lines 119, 157, 214,
250).  The end-to-end output claim is settled against the transmitted run.
-/

/-- A record: one line of the input file, as its sequence of bytes. -/
abbrev Rec := List Nat

/-- `sequential_sort` (SequentialSort.cpp line 36 and SampleSort2.cpp line 39):
std::sort of a vector of strings, i.e. the ≤-sorted permutation of the data. -/
def sequential_sort (data : List Rec) : List Rec :=
  List.insertionSort (· ≤ ·) data

/-- The share of the initial scatter that process p receives
(SampleSort2.cpp lines 111 and 117): `n / size + (p < n % size ? 1 : 0)`. -/
def shareCount (n k p : Nat) : Nat :=
  n / k + if p < n % k then 1 else 0

/-- Cutting the master's data into consecutive chunks of the given sizes: the
send loop of lines 114-129 walks an offset through `all_data`. -/
def chunksBy : List Rec → List Nat → List (List Rec)
  | _, [] => []
  | l, c :: cs => l.take c :: chunksBy (l.drop c) cs

/-- SCATTER phase at record value: process p holds the contiguous slice of
size `shareCount n k p` of the input, in input order.  The codec applied to
the slices of ranks ≥ 1 is elided here; scatterPhaseWire is the transmitted
form. -/
def scatterPhase (data : List Rec) (k : Nat) : List (List Rec) :=
  chunksBy data ((List.range k).map (shareCount data.length k))

/-- LOCAL_SORT phase (line 142): every process sorts its own partition. -/
def localSortPhase (parts : List (List Rec)) : List (List Rec) :=
  parts.map (List.insertionSort (· ≤ ·))

/-- The sampling loop (lines 146-152): for i = 1..s push
`local_data[i * local_data.size() / (s + 1)]` when that index is in range
(`l[idx]?` is `some` exactly when `idx < l.length`). -/
def localSamples (l : List Rec) (s : Nat) : List Rec :=
  (List.range s).filterMap fun j => l[(j + 1) * l.length / (s + 1)]?

/-- SAMPLE phase: every process samples its sorted partition with
s = size − 1. -/
def samplePhase (parts : List (List Rec)) (s : Nat) : List (List Rec) :=
  parts.map fun l => localSamples l s

/-- SAMPLE_COLLECT (lines 154-177) at record value: the master's own samples
first, then the samples of ranks 1..size−1 in rank order (the codec applied
to the latter is elided; gatherSamplesWire is the transmitted form). -/
def gatherSamples (sampleSets : List (List Rec)) : List Rec :=
  sampleSets.flatten

/-- PIVOT_SELECT (lines 180-186): sort the gathered samples, then take
`pivots[i-1] = gathered_samples[i * gathered_samples.size() / size]` for
i = 1..size−1.  The vector indexing is partial: `none` models the
out-of-range access `gathered_samples[0]` on an empty sample vector. -/
def select_pivots (gathered : List Rec) (k : Nat) : Option (List Rec) :=
  (List.range (k - 1)).mapM fun i =>
    (List.insertionSort (· ≤ ·) gathered)[(i + 1) * gathered.length / k]?

/-- Destination of one record (line 202):
`upper_bound(pivots.begin(), pivots.end(), seq) - pivots.begin()`, the index of
the first pivot strictly greater than the record — the number of pivots when no
pivot exceeds it. -/
def dest (pivots : List Rec) (r : Rec) : Nat :=
  match pivots with
  | [] => 0
  | p :: ps => if r < p then 0 else dest ps r + 1

/-- PARTITION phase (lines 200-204): every process splits its local data into
`size` buckets; bucket d collects, in local order, the records with
destination d. -/
def partitionPhase (pivots : List Rec) (parts : List (List Rec)) (k : Nat) :
    List (List (List Rec)) :=
  parts.map fun l => (List.range k).map fun d => l.filter fun r => dest pivots r == d

/-- The bucket destined to process d that process p holds. -/
def recvFrom (buckets : List (List (List Rec))) (p d : Nat) : List Rec :=
  (buckets.getD p []).getD d []

/-- One row of the EXCHANGE phase (lines 211-233) at record value: process d
first keeps its own bucket d (inserted during the send loop), then receives
from the other ranks p = 0..size−1 in increasing order; p = d contributes
nothing in the receive loop.  The codec applied to the received buckets is
elided; exchRowWire is the transmitted form. -/
def exchRow (buckets : List (List (List Rec))) (k d : Nat) : List Rec :=
  recvFrom buckets d d ++
    ((List.range k).map fun p => if p = d then [] else recvFrom buckets p d).flatten

/-- EXCHANGE phase: the new local data of every process. -/
def exchangePhase (buckets : List (List (List Rec))) (k : Nat) : List (List Rec) :=
  (List.range k).map (exchRow buckets k)

/-- FINAL_SORT phase (line 237): every process sorts its received records. -/
def finalSortPhase (parts : List (List Rec)) : List (List Rec) :=
  parts.map (List.insertionSort (· ≤ ·))

/-- GATHER (lines 240-262) at record value: `final_all` is the master's final
partition followed by those of ranks 1..size−1 in rank order — the
concatenation of the final partitions in process-index order, as written to
the output file.  The codec applied to the partitions of ranks ≥ 1 is elided;
gatherPhaseWire is the transmitted form. -/
def gatherPhase (parts : List (List Rec)) : List Rec :=
  parts.flatten

/-- The sorted local partitions after LOCAL_SORT. -/
def localsOf (data : List Rec) (k : Nat) : List (List Rec) :=
  localSortPhase (scatterPhase data k)

/-- The pivot vector the record-level run computes; `none` when pivot
selection performs an out-of-range access (which aborts the run).  The codec
on sample collection and on the pivot broadcast is elided; pivotsOfWire is
the transmitted form. -/
def pivotsOf (data : List Rec) (k : Nat) : Option (List Rec) :=
  select_pivots (gatherSamples (samplePhase (localsOf data k) (k - 1))) k

/-- The whole run: the list of final per-process partitions. -/
def pipeline (data : List Rec) (k : Nat) : Option (List (List Rec)) :=
  (pivotsOf data k).map fun pivots =>
    finalSortPhase (exchangePhase (partitionPhase pivots (localsOf data k) k) k)

/-- The record sequence written to the output file. -/
def pipelineOutput (data : List Rec) (k : Nat) : Option (List Rec) :=
  (pipeline data k).map gatherPhase

/-- Record Codec, encode (lines 121-126 and every other send site): a record is
framed as the length field `s.size() + 1` followed by the record's bytes and
the terminating 0 byte of `c_str()`. -/
def encode (r : Rec) : Nat × List Nat :=
  (r.length + 1, r ++ [0])

/-- Record Codec, decode (lines 131-137 and every other receive site): `len`
bytes are received into `buf` and the record is rebuilt by
`string(buf.data())`, which reads up to the first 0 byte. -/
def decode (msg : Nat × List Nat) : Rec :=
  (msg.2.take msg.1).takeWhile fun b => b != 0

/-- The sample indices in the words of the spec (§4.3): "select s records at
indices ⌊i·n/(s+1)⌋ for i = 1..s, skipping any index ≥ n". -/
def sampleIndices (n s : Nat) : List Nat :=
  ((List.range s).map fun j => (j + 1) * n / (s + 1)).filter fun idx => decide (idx < n)

/-- The sampler in the words of the spec: the records of the sorted partition
at the non-skipped sample indices, in order. -/
def localSamplesSpec (l : List Rec) (s : Nat) : List Rec :=
  (sampleIndices l.length s).map fun idx => l.getD idx []

/-- A record as it arrives after one cross-rank transfer: the receiver
rebuilds it from the length-prefixed buffer (decode of encode), which
truncates it at its first 0 byte. -/
def xferRec (r : Rec) : Rec := decode (encode r)

/-- The coordinator's own entry of a per-rank list is kept by direct copy (no
serialization); every other rank's entry crosses the network, so each of its
records passes the codec. -/
def wireTail : List (List Rec) → List (List Rec)
  | [] => []
  | own :: rest => own :: rest.map fun l => l.map xferRec

/-- SCATTER as transmitted: rank 0 keeps its chunk by direct copy (line 119);
every record sent to ranks ≥ 1 passes the codec (lines 124-136). -/
def scatterPhaseWire (data : List Rec) (k : Nat) : List (List Rec) :=
  wireTail (scatterPhase data k)

/-- The sorted local partitions of the transmitted run. -/
def localsOfWire (data : List Rec) (k : Nat) : List (List Rec) :=
  localSortPhase (scatterPhaseWire data k)

/-- SAMPLE_COLLECT as transmitted: the master keeps its own samples directly
(line 157); samples from ranks ≥ 1 pass the codec (lines 160-167). -/
def gatherSamplesWire (sampleSets : List (List Rec)) : List Rec :=
  (wireTail sampleSets).flatten

/-- Pivot selection and broadcast as transmitted: the pivots are computed from
the transmitted samples, and the broadcast (lines 189-197) rebuilds every
pivot with string(buf.data()) on every rank, the master included (line 196),
so each pivot passes the codec once. -/
def pivotsOfWire (data : List Rec) (k : Nat) : Option (List Rec) :=
  (select_pivots (gatherSamplesWire (samplePhase (localsOfWire data k) (k - 1))) k).map
    fun ps => ps.map xferRec

/-- One row of the EXCHANGE as transmitted: the own bucket is moved directly
(line 214); buckets received from other ranks pass the codec (lines 225-231). -/
def exchRowWire (buckets : List (List (List Rec))) (k d : Nat) : List Rec :=
  recvFrom buckets d d ++
    ((List.range k).map fun p =>
      if p = d then [] else (recvFrom buckets p d).map xferRec).flatten

/-- EXCHANGE as transmitted: the new local data of every process. -/
def exchangePhaseWire (buckets : List (List (List Rec))) (k : Nat) : List (List Rec) :=
  (List.range k).map (exchRowWire buckets k)

/-- GATHER as transmitted: the master inserts its own final partition directly
(line 250); the partitions of ranks ≥ 1 pass the codec (lines 252-258). -/
def gatherPhaseWire (parts : List (List Rec)) : List Rec :=
  (wireTail parts).flatten

/-- The whole transmitted run: the list of final per-process partitions
(these are held locally after the final sort, not transmitted). -/
def pipelineWire (data : List Rec) (k : Nat) : Option (List (List Rec)) :=
  (pivotsOfWire data k).map fun pivots =>
    finalSortPhase (exchangePhaseWire (partitionPhase pivots (localsOfWire data k) k) k)

/-- The record sequence the transmitted run writes to the output file. -/
def pipelineOutputWire (data : List Rec) (k : Nat) : Option (List Rec) :=
  (pipelineWire data k).map gatherPhaseWire

example : pipelineOutput [[2, 2], [1, 1], [3, 3], [0, 0]] 2 =
    some [[0, 0], [1, 1], [2, 2], [3, 3]] := by decide

example : pipelineOutput [] 2 = none := rfl

example : pipelineOutput [] 1 = some [] := rfl

example : select_pivots [] 2 = none := rfl

example : localSamples [[1]] 2 = [[1], [1]] := rfl

example : decode (encode [65, 0, 66]) = [65] := rfl

/-! ### The sampler -/

theorem filterMap_getElem_eq (l : List Rec) (idxs : List Nat) :
    idxs.filterMap (fun i => l[i]?) =
      (idxs.filter fun i => decide (i < l.length)).map fun i => l.getD i [] := by
  induction idxs with
  | nil => rfl
  | cons i t ih =>
    by_cases h : i < l.length
    · simp [List.filterMap_cons, List.filter_cons, h, List.getElem?_eq_getElem h,
        List.getD_eq_getElem?_getD, ih]
    · simp [List.filterMap_cons, List.filter_cons, h,
        List.getElem?_eq_none_iff.mpr (le_of_not_lt h), ih]

theorem length_filterMap_of_isSome {α β : Type} (f : α → Option β) :
    ∀ js : List α, (∀ j ∈ js, (f j).isSome) → (js.filterMap f).length = js.length := by
  intro js
  induction js with
  | nil => intro _; rfl
  | cons j t ih =>
    intro h
    obtain ⟨b, hb⟩ := Option.isSome_iff_exists.mp (h j (by simp))
    simp [List.filterMap_cons, hb, ih fun x hx => h x (List.mem_cons_of_mem j hx)]

theorem sampleIdx_lt {n s j : Nat} (hn : 0 < n) (hj : j < s) :
    (j + 1) * n / (s + 1) < n := by
  rw [Nat.div_lt_iff_lt_mul (Nat.succ_pos s), Nat.mul_comm n (s + 1)]
  exact (Nat.mul_lt_mul_right hn).mpr (by omega)

theorem localSamples_length (l : List Rec) (s : Nat) (h : l ≠ []) :
    (localSamples l s).length = s := by
  have hn : 0 < l.length := List.length_pos.mpr h
  unfold localSamples
  rw [length_filterMap_of_isSome]
  · exact List.length_range s
  · intro j hj
    rw [List.mem_range] at hj
    simp [List.getElem?_eq_getElem (sampleIdx_lt hn hj)]

/-- C6: for every sorted local partition of size n and target sample count s,
the sampler of lines 146-152 selects exactly the records at indices
⌊i·n/(s+1)⌋ for i = 1..s, in that order, skipping any computed index ≥ n:
it coincides with the spec-side sampler built from those words. -/
theorem C6_sampler_matches_spec (l : List Rec) (s : Nat) :
    localSamples l s = localSamplesSpec l s := by
  have h := filterMap_getElem_eq l ((List.range s).map fun j => (j + 1) * l.length / (s + 1))
  rw [List.filterMap_map] at h
  unfold localSamples localSamplesSpec sampleIndices
  simpa [Function.comp] using h

/-- C7 counterexample: a partition of size n = 1 with target sample count
s = 2 (so 0 < n < s) does not contribute fewer than s samples — the sampler
emits exactly 2 samples (the same record twice). -/
theorem C7_counterexample :
    0 < ([[0]] : List Rec).length ∧ ([[0]] : List Rec).length < 2 ∧
      ¬(localSamples [[0]] 2).length < 2 := by decide

/-- C7 amended: a process whose local partition is nonempty always contributes
exactly s samples (every computed index ⌊i·n/(s+1)⌋ is < n, so the skip never
fires); a process contributes fewer than s samples only when its partition is
empty. -/
theorem C7_amended_sample_count (l : List Rec) (s : Nat) (h : l ≠ []) :
    (localSamples l s).length = s :=
  localSamples_length l s h

/-- C7 amended, witness at a concrete input. -/
theorem C7_witness : (localSamples [[0]] 2).length = 2 :=
  C7_amended_sample_count [[0]] 2 (by decide)

/-- C8: for a nonempty sorted partition of size n and sample count s ≥ 1,
every sampled index ⌊i·n/(s+1)⌋, i = 1..s, is strictly below n, so the sampler
emits exactly s samples. -/
theorem C8_sampler_indices_in_range (l : List Rec) (s : Nat)
    (hn : 1 ≤ l.length) (hs : 1 ≤ s) :
    (∀ j < s, (j + 1) * l.length / (s + 1) < l.length) ∧
      (localSamples l s).length = s := by
  refine ⟨fun j hj => sampleIdx_lt hn hj, ?_⟩
  exact localSamples_length l s (by intro e; rw [e] at hn; simp at hn)

/-- C8, witness at a concrete input. -/
theorem C8_witness :
    (∀ j < 2, (j + 1) * ([[0]] : List Rec).length / 3 < ([[0]] : List Rec).length) ∧
      (localSamples [[0]] 2).length = 2 :=
  C8_sampler_indices_in_range [[0]] 2 (by decide) (by decide)

/-! ### The partitioner -/

theorem dest_le_length (pivots : List Rec) (r : Rec) :
    dest pivots r ≤ pivots.length := by
  induction pivots with
  | nil => simp [dest]
  | cons p ps ih => by_cases h : r < p <;> simp [dest, h] <;> omega

theorem lt_getD_dest (pivots : List Rec) (r : Rec)
    (h : dest pivots r < pivots.length) :
    r < pivots.getD (dest pivots r) [] := by
  induction pivots with
  | nil => simp at h
  | cons p ps ih =>
    by_cases hrp : r < p
    · simpa [dest, hrp] using hrp
    · simp only [dest, if_neg hrp, List.getD_cons_succ]
      simp only [dest, if_neg hrp, List.length_cons] at h
      exact ih (by omega)

theorem getD_le_of_lt_dest (pivots : List Rec) (r : Rec) :
    ∀ j, j < dest pivots r → pivots.getD j [] ≤ r := by
  induction pivots with
  | nil => intro j hj; simp [dest] at hj
  | cons p ps ih =>
    intro j hj
    by_cases hrp : r < p
    · simp [dest, hrp] at hj
    · simp only [dest, if_neg hrp] at hj
      cases j with
      | zero => simpa using le_of_not_lt hrp
      | succ j =>
        simp only [List.getD_cons_succ]
        exact ih j (by omega)

theorem le_of_dest_lt_dest {pivots : List Rec} {a b : Rec}
    (h : dest pivots a < dest pivots b) : a ≤ b := by
  have hlt : dest pivots a < pivots.length :=
    lt_of_lt_of_le h (dest_le_length pivots b)
  exact le_of_lt (lt_of_lt_of_le (lt_getD_dest pivots a hlt)
    (getD_le_of_lt_dest pivots b _ h))

/-- C3: over a non-decreasing pivot sequence of length k − 1, the destination
computed by the partitioning loop (line 202) is the position of the smallest
pivot strictly greater than the record, k − 1 when no pivot exceeds it; every
record sent to destination d satisfies pivot[d−1] ≤ r (when d ≥ 1) and
r < pivot[d] (when d < k − 1); and with zero pivots (k = 1) every record gets
destination 0. -/
theorem C3_partitioner_dest (k : Nat) (pivots : List Rec) (r : Rec)
    (hk : 1 ≤ k) (hlen : pivots.length = k - 1)
    (hsorted : List.Sorted (· ≤ ·) pivots) :
    (∀ j < pivots.length, r < pivots.getD j [] → dest pivots r ≤ j) ∧
      (dest pivots r < pivots.length → r < pivots.getD (dest pivots r) []) ∧
      ((∀ j < pivots.length, pivots.getD j [] ≤ r) → dest pivots r = k - 1) ∧
      (1 ≤ dest pivots r → pivots.getD (dest pivots r - 1) [] ≤ r) ∧
      (dest pivots r < k - 1 → r < pivots.getD (dest pivots r) []) ∧
      (k = 1 → dest pivots r = 0) := by
  refine ⟨?_, lt_getD_dest pivots r, ?_, ?_, ?_, ?_⟩
  · intro j _ hj
    by_contra hc
    exact absurd hj (not_lt.mpr (getD_le_of_lt_dest pivots r j (by omega)))
  · intro hall
    rcases lt_or_eq_of_le (dest_le_length pivots r) with hlt | he
    · exact absurd (hall _ hlt) (not_le.mpr (lt_getD_dest pivots r hlt))
    · omega
  · intro h1
    exact getD_le_of_lt_dest pivots r _ (by omega)
  · intro hd
    exact lt_getD_dest pivots r (by omega)
  · intro h1
    have : pivots.length = 0 := by omega
    rw [List.length_eq_zero.mp this]
    rfl

/-- C3, witness: k = 3 processes, pivots [[1],[3]], record [2]. -/
theorem C3_witness :
    (∀ j < ([[1], [3]] : List Rec).length,
        [2] < List.getD ([[1], [3]] : List Rec) j [] → dest [[1], [3]] [2] ≤ j) ∧
      (dest [[1], [3]] [2] < ([[1], [3]] : List Rec).length →
        [2] < List.getD ([[1], [3]] : List Rec) (dest [[1], [3]] [2]) []) ∧
      ((∀ j < ([[1], [3]] : List Rec).length,
          List.getD ([[1], [3]] : List Rec) j [] ≤ [2]) → dest [[1], [3]] [2] = 3 - 1) ∧
      (1 ≤ dest [[1], [3]] [2] →
        List.getD ([[1], [3]] : List Rec) (dest [[1], [3]] [2] - 1) [] ≤ [2]) ∧
      (dest [[1], [3]] [2] < 3 - 1 →
        [2] < List.getD ([[1], [3]] : List Rec) (dest [[1], [3]] [2]) []) ∧
      (3 = 1 → dest [[1], [3]] [2] = 0) :=
  C3_partitioner_dest 3 [[1], [3]] [2] (by decide) (by decide) (by decide)

/-! ### The record codec -/

theorem takeWhile_append_zero (r : List Nat) (h : 0 ∉ r) :
    (r ++ [0]).takeWhile (fun b => b != 0) = r := by
  induction r with
  | nil => rfl
  | cons a t ih =>
    simp only [List.mem_cons, not_or] at h
    obtain ⟨ha, ht⟩ := h
    have ha2 : (a != 0) = true := by
      simpa using fun e => ha e.symm
    simp [List.takeWhile_cons, ha2, ih ht]

/-- C9 counterexample: a record holding a 0 byte does not round-trip — the
receive side rebuilds the record with string(buf.data()), which stops at the
first 0 byte. -/
theorem C9_counterexample : decode (encode [65, 0]) ≠ [65, 0] := by decide

/-- C9 amended: the length-prefixed codec round-trips exactly for every record
that contains no 0 byte (every line of a text file). -/
theorem C9_roundtrip (r : Rec) (h : 0 ∉ r) : decode (encode r) = r := by
  unfold encode decode
  have hlen : (r ++ [0]).length = r.length + 1 := by simp
  rw [show ((r.length + 1, r ++ [0]) : Nat × List Nat).2 = r ++ [0] from rfl,
    show ((r.length + 1, r ++ [0]) : Nat × List Nat).1 = r.length + 1 from rfl,
    ← hlen, List.take_length, takeWhile_append_zero r h]

/-- C9, witness at a concrete record. -/
theorem C9_witness : decode (encode [65, 67, 71, 84]) = [65, 67, 71, 84] :=
  C9_roundtrip [65, 67, 71, 84] (by decide)

/-- C5: on the empty dataset with 2 processes every gathered sample set is
empty, and the pivot-selection phase performs the out-of-range vector access
gathered_samples[0] (line 184) — the phase fails instead of completing, so the
run never reaches the output-writing phase. -/
theorem C5_empty_input_pivot_failure :
    pivotsOf [] 2 = none ∧ select_pivots [] 2 = none := by decide

/-! ### The pivot selector -/

theorem lt_length_of_isSome_getElem {α : Type} {l : List α} {i : Nat}
    (h : l[i]?.isSome) : i < l.length := by
  by_contra hc
  rw [List.getElem?_eq_none_iff.mpr (by omega)] at h
  simp at h

theorem mapM_option_length {α β : Type} (f : α → Option β) :
    ∀ (xs : List α) (ys : List β), xs.mapM f = some ys → ys.length = xs.length := by
  intro xs
  induction xs with
  | nil =>
    intro ys h
    rw [List.mapM_nil] at h
    cases h
    rfl
  | cons x t ih =>
    intro ys h
    rw [List.mapM_cons] at h
    cases hfx : f x with
    | none => rw [hfx] at h; simp at h
    | some b =>
      rw [hfx] at h
      cases hmt : List.mapM f t with
      | none => rw [hmt] at h; simp at h
      | some bs =>
        rw [hmt] at h
        simp at h
        subst h
        simp [ih bs hmt]

theorem mapM_option_getElem {α β : Type} (f : α → Option β) :
    ∀ (xs : List α) (ys : List β), xs.mapM f = some ys →
      ∀ (i : Nat) (a : α), xs[i]? = some a → ys[i]? = f a := by
  intro xs
  induction xs with
  | nil =>
    intro ys _ i a ha
    simp at ha
  | cons x t ih =>
    intro ys h i a ha
    rw [List.mapM_cons] at h
    cases hfx : f x with
    | none => rw [hfx] at h; simp at h
    | some b =>
      rw [hfx] at h
      cases hmt : List.mapM f t with
      | none => rw [hmt] at h; simp at h
      | some bs =>
        rw [hmt] at h
        simp at h
        subst h
        cases i with
        | zero =>
          simp at ha
          rw [ha] at hfx
          simp [hfx]
        | succ i =>
          simp only [List.getElem?_cons_succ] at ha ⊢
          exact ih bs hmt i a ha

theorem mapM_option_isSome {α β : Type} (f : α → Option β) :
    ∀ xs : List α, (∀ x ∈ xs, (f x).isSome) → ∃ ys, xs.mapM f = some ys := by
  intro xs
  induction xs with
  | nil => intro _; exact ⟨[], rfl⟩
  | cons x t ih =>
    intro h
    obtain ⟨b, hb⟩ := Option.isSome_iff_exists.mp (h x (by simp))
    obtain ⟨bs, hbs⟩ := ih fun y hy => h y (List.mem_cons_of_mem x hy)
    exact ⟨b :: bs, by rw [List.mapM_cons, hb, hbs]; rfl⟩

theorem pivotIdx_lt {m k i : Nat} (hm : 0 < m) (hi : i < k - 1) :
    (i + 1) * m / k < m := by
  rw [Nat.div_lt_iff_lt_mul (by omega : 0 < k), Nat.mul_comm m k]
  exact (Nat.mul_lt_mul_right hm).mpr (by omega)

theorem select_pivots_some (gathered : List Rec) (k : Nat) (hg : gathered ≠ []) :
    ∃ ps, select_pivots gathered k = some ps := by
  apply mapM_option_isSome
  intro i hi
  rw [List.mem_range] at hi
  have hm : 0 < gathered.length := List.length_pos.mpr hg
  have hlt : (i + 1) * gathered.length / k < (List.insertionSort (· ≤ ·) gathered).length := by
    rw [List.length_insertionSort]
    exact pivotIdx_lt hm hi
  rw [List.getElem?_eq_getElem hlt]
  rfl

theorem select_pivots_length (gathered : List Rec) (k : Nat) (ps : List Rec)
    (h : select_pivots gathered k = some ps) : ps.length = k - 1 := by
  have := mapM_option_length _ _ _ h
  simpa using this

theorem select_pivots_getElem (gathered : List Rec) (k : Nat) (ps : List Rec)
    (h : select_pivots gathered k = some ps) (i : Nat) (hi : i < k - 1) :
    ps[i]? = (List.insertionSort (· ≤ ·) gathered)[(i + 1) * gathered.length / k]? :=
  mapM_option_getElem _ _ _ h i i (List.getElem?_range hi)

theorem select_pivots_sorted (gathered : List Rec) (k : Nat) (ps : List Rec)
    (h : select_pivots gathered k = some ps) : List.Sorted (· ≤ ·) ps := by
  have hlen : ps.length = k - 1 := select_pivots_length gathered k ps h
  show List.Pairwise (· ≤ ·) ps
  rw [List.pairwise_iff_getElem]
  intro i j hi hj hij
  have hpi := select_pivots_getElem gathered k ps h i (by omega)
  have hpj := select_pivots_getElem gathered k ps h j (by omega)
  have hia : (i + 1) * gathered.length / k < (List.insertionSort (· ≤ ·) gathered).length := by
    apply lt_length_of_isSome_getElem
    rw [← hpi, List.getElem?_eq_getElem hi]
    rfl
  have hjb : (j + 1) * gathered.length / k < (List.insertionSort (· ≤ ·) gathered).length := by
    apply lt_length_of_isSome_getElem
    rw [← hpj, List.getElem?_eq_getElem hj]
    rfl
  have hab : (i + 1) * gathered.length / k ≤ (j + 1) * gathered.length / k :=
    Nat.div_le_div_right (Nat.mul_le_mul_right _ (by omega))
  have hgi : ps[i] = (List.insertionSort (· ≤ ·) gathered)[(i + 1) * gathered.length / k] := by
    have := hpi
    rw [List.getElem?_eq_getElem hi, List.getElem?_eq_getElem hia] at this
    exact Option.some.inj this
  have hgj : ps[j] = (List.insertionSort (· ≤ ·) gathered)[(j + 1) * gathered.length / k] := by
    have := hpj
    rw [List.getElem?_eq_getElem hj, List.getElem?_eq_getElem hjb] at this
    exact Option.some.inj this
  rcases Nat.lt_or_ge ((i + 1) * gathered.length / k) ((j + 1) * gathered.length / k)
    with hlt | hge
  · have hs := List.sorted_insertionSort (· ≤ ·) gathered
    have := (List.pairwise_iff_getElem.mp hs) _ _ hia hjb hlt
    rw [hgi, hgj]
    exact this
  · have heq : (i + 1) * gathered.length / k = (j + 1) * gathered.length / k :=
      le_antisymm hab hge
    have hsame : ps[i]? = ps[j]? := by rw [hpi, hpj, heq]
    rw [List.getElem?_eq_getElem hi, List.getElem?_eq_getElem hj] at hsame
    exact le_of_eq (Option.some.inj hsame)

/-- C4: for gathered samples of total count m ≥ 1 and process count k ≥ 2, the
pivot selector (lines 180-186) succeeds and returns the k−1 records
sorted_samples[⌊(i+1)·m/k⌋] for i = 0..k−2, and they are non-decreasing. -/
theorem C4_pivot_selector (gathered : List Rec) (k : Nat)
    (hm : 1 ≤ gathered.length) (hk : 2 ≤ k) :
    ∃ ps, select_pivots gathered k = some ps ∧ ps.length = k - 1 ∧
      (∀ i < k - 1, ps[i]? =
        (List.insertionSort (· ≤ ·) gathered)[(i + 1) * gathered.length / k]?) ∧
      List.Sorted (· ≤ ·) ps := by
  obtain ⟨ps, hps⟩ :=
    select_pivots_some gathered k (by intro e; rw [e] at hm; simp at hm)
  exact ⟨ps, hps, select_pivots_length _ _ _ hps,
    fun i hi => select_pivots_getElem _ _ _ hps i hi,
    select_pivots_sorted _ _ _ hps⟩

/-! ### Scatter: chunk sizes and contents -/

theorem chunksBy_length : ∀ (cs : List Nat) (l : List Rec),
    (chunksBy l cs).length = cs.length := by
  intro cs
  induction cs with
  | nil => intro l; rfl
  | cons c t ih => intro l; simp [chunksBy, ih]

theorem chunksBy_flatten : ∀ (cs : List Nat) (l : List Rec),
    (chunksBy l cs).flatten = l.take cs.sum := by
  intro cs
  induction cs with
  | nil => intro l; rfl
  | cons c t ih =>
    intro l
    simp only [chunksBy, List.flatten_cons, ih, List.sum_cons, List.take_add]

theorem sum_map_ite_lt : ∀ k m : Nat,
    ((List.range k).map fun p => if p < m then 1 else 0).sum = min m k := by
  intro k
  induction k with
  | zero => intro m; simp
  | succ k ih =>
    intro m
    rw [List.range_succ, List.map_append, List.sum_append, ih]
    by_cases h : k < m <;> simp [h] <;> omega

theorem sum_shareCounts (n k : Nat) (hk : 0 < k) :
    ((List.range k).map (shareCount n k)).sum = n := by
  unfold shareCount
  rw [List.sum_map_add]
  have h1 : ((List.range k).map fun _ => n / k).sum = k * (n / k) := by
    rw [show (fun _ : Nat => n / k) = Function.const Nat (n / k) from rfl,
      List.map_const, List.sum_replicate, List.length_range, smul_eq_mul]
  have h2 := sum_map_ite_lt k (n % k)
  have h3 : n % k < k := Nat.mod_lt n hk
  rw [h1, h2, min_eq_left (le_of_lt h3)]
  have := Nat.div_add_mod n k
  omega

theorem scatterPhase_length (data : List Rec) (k : Nat) :
    (scatterPhase data k).length = k := by
  unfold scatterPhase
  rw [chunksBy_length, List.length_map, List.length_range]

theorem scatterPhase_flatten (data : List Rec) (k : Nat) (hk : 0 < k) :
    (scatterPhase data k).flatten = data := by
  unfold scatterPhase
  rw [chunksBy_flatten, sum_shareCounts data.length k hk, List.take_length]

theorem localSortPhase_flatten_perm (parts : List (List Rec)) :
    (localSortPhase parts).flatten.Perm parts.flatten := by
  induction parts with
  | nil => rfl
  | cons l t ih =>
    simp only [localSortPhase, List.map_cons, List.flatten_cons]
    exact (List.perm_insertionSort (· ≤ ·) l).append ih

theorem finalSortPhase_eq_localSortPhase : finalSortPhase = localSortPhase := rfl

theorem localsOf_length (data : List Rec) (k : Nat) :
    (localsOf data k).length = k := by
  unfold localsOf localSortPhase
  rw [List.length_map, scatterPhase_length]

theorem localsOf_flatten_perm (data : List Rec) (k : Nat) (hk : 0 < k) :
    (localsOf data k).flatten.Perm data := by
  unfold localsOf
  have h := localSortPhase_flatten_perm (scatterPhase data k)
  rw [scatterPhase_flatten data k hk] at h
  exact h

/-! ### Multiset bookkeeping for content conservation -/

theorem coe_append {α : Type} (l₁ l₂ : List α) :
    ((l₁ ++ l₂ : List α) : Multiset α) = (l₁ : Multiset α) + (l₂ : Multiset α) := by
  simp

theorem coe_flatten_range_map {α : Type} (k : Nat) (g : Nat → List α) :
    ((((List.range k).map g).flatten : List α) : Multiset α) =
      Finset.sum (Finset.range k) fun i => ((g i : List α) : Multiset α) := by
  induction k with
  | zero => rfl
  | succ k ih =>
    rw [List.range_succ, List.map_append, List.flatten_append, coe_append, ih,
      Finset.sum_range_succ]
    simp

theorem sum_getD_coe {α : Type} : ∀ L : List (List α),
    (Finset.sum (Finset.range L.length) fun i => ((L.getD i [] : List α) : Multiset α)) =
      ((L.flatten : List α) : Multiset α) := by
  intro L
  induction L with
  | nil => rfl
  | cons l t ih =>
    rw [List.length_cons, Finset.sum_range_succ', List.flatten_cons, coe_append]
    simp only [List.getD_cons_succ, List.getD_cons_zero, ih]
    rw [add_comm]

theorem sum_filter_dest (pivots : List Rec) (k : Nat) :
    ∀ l : List Rec, (∀ r ∈ l, dest pivots r < k) →
      (Finset.sum (Finset.range k) fun d =>
          ((l.filter fun r => dest pivots r == d : List Rec) : Multiset Rec)) =
        (l : Multiset Rec) := by
  intro l
  induction l with
  | nil => simp
  | cons r t ih =>
    intro h
    have hsplit : ∀ d, ((((r :: t).filter fun x => dest pivots x == d : List Rec)) : Multiset Rec) =
        (if d = dest pivots r then ({r} : Multiset Rec) else 0) +
          ((t.filter fun x => dest pivots x == d : List Rec) : Multiset Rec) := by
      intro d
      by_cases hd : dest pivots r = d
      · simp [List.filter_cons, hd, ← Multiset.cons_coe, Multiset.singleton_add]
      · have hd2 : ¬d = dest pivots r := fun e => hd e.symm
        simp [List.filter_cons, hd, hd2]
    calc (Finset.sum (Finset.range k) fun d =>
            (((r :: t).filter fun x => dest pivots x == d : List Rec) : Multiset Rec))
        = Finset.sum (Finset.range k) (fun d =>
            (if d = dest pivots r then ({r} : Multiset Rec) else 0) +
              ((t.filter fun x => dest pivots x == d : List Rec) : Multiset Rec)) := by
          exact Finset.sum_congr rfl fun d _ => hsplit d
      _ = (Finset.sum (Finset.range k) fun d =>
            if d = dest pivots r then ({r} : Multiset Rec) else 0) +
            Finset.sum (Finset.range k) (fun d =>
              ((t.filter fun x => dest pivots x == d : List Rec) : Multiset Rec)) := by
          rw [Finset.sum_add_distrib]
      _ = ({r} : Multiset Rec) + (t : Multiset Rec) := by
          rw [ih fun x hx => h x (List.mem_cons_of_mem r hx)]
          congr 1
          rw [Finset.sum_ite_eq' (Finset.range k) (dest pivots r) fun _ => ({r} : Multiset Rec)]
          simp [Finset.mem_range.mpr (h r (by simp))]
      _ = ((r :: t : List Rec) : Multiset Rec) := by
          rw [Multiset.singleton_add, Multiset.cons_coe]

/-! ### The exchange phase: content accounting -/

theorem exchRow_coe (buckets : List (List (List Rec))) (k d : Nat) (hd : d < k) :
    ((exchRow buckets k d : List Rec) : Multiset Rec) =
      Finset.sum (Finset.range k) fun p =>
        ((recvFrom buckets p d : List Rec) : Multiset Rec) := by
  unfold exchRow
  rw [coe_append, coe_flatten_range_map]
  have hstep : (Finset.sum (Finset.range k) fun p =>
      (((if p = d then [] else recvFrom buckets p d) : List Rec) : Multiset Rec)) =
      Finset.sum ((Finset.range k).erase d) fun p =>
        ((recvFrom buckets p d : List Rec) : Multiset Rec) := by
    rw [← Finset.add_sum_erase (Finset.range k) _ (Finset.mem_range.mpr hd)]
    rw [if_pos rfl, Multiset.coe_nil, zero_add]
    exact Finset.sum_congr rfl fun p hp => by rw [if_neg (Finset.mem_erase.mp hp).1]
  rw [hstep, ← Finset.add_sum_erase (Finset.range k) _ (Finset.mem_range.mpr hd)]

theorem exchangePhase_flatten_coe (buckets : List (List (List Rec))) (k : Nat) :
    (((exchangePhase buckets k).flatten : List Rec) : Multiset Rec) =
      Finset.sum (Finset.range k) fun p => Finset.sum (Finset.range k) fun d =>
        ((recvFrom buckets p d : List Rec) : Multiset Rec) := by
  unfold exchangePhase
  rw [coe_flatten_range_map]
  rw [Finset.sum_congr rfl fun d hd => exchRow_coe buckets k d (Finset.mem_range.mp hd)]
  exact Finset.sum_comm

theorem recvFrom_partition (pivots : List Rec) (parts : List (List Rec)) (k p d : Nat)
    (hp : p < parts.length) (hd : d < k) :
    recvFrom (partitionPhase pivots parts k) p d =
      (parts.getD p []).filter fun r => dest pivots r == d := by
  unfold recvFrom partitionPhase
  rw [List.getD_eq_getElem?_getD (parts.map _) p [], List.getElem?_map,
    List.getElem?_eq_getElem hp]
  rw [List.getD_eq_getElem?_getD parts p [], List.getElem?_eq_getElem hp]
  simp only [Option.map_some', Option.getD_some]
  rw [List.getD_eq_getElem?_getD, List.getElem?_map, List.getElem?_range hd]
  simp only [Option.map_some', Option.getD_some]

theorem dest_lt_of_pivotsOf (data : List Rec) (k : Nat) (pivots : List Rec) (hk : 0 < k)
    (h : pivotsOf data k = some pivots) (r : Rec) : dest pivots r < k := by
  unfold pivotsOf at h
  have hlen : pivots.length = k - 1 := select_pivots_length _ _ _ h
  have := dest_le_length pivots r
  omega

theorem exchange_content (data : List Rec) (k : Nat) (pivots : List Rec)
    (hdest : ∀ r : Rec, dest pivots r < k) :
    (((exchangePhase (partitionPhase pivots (localsOf data k) k) k).flatten : List Rec) :
        Multiset Rec) =
      (((localsOf data k).flatten : List Rec) : Multiset Rec) := by
  rw [exchangePhase_flatten_coe]
  have hlen : (localsOf data k).length = k := localsOf_length data k
  have hstep : ∀ p ∈ Finset.range k,
      (Finset.sum (Finset.range k) fun d =>
        ((recvFrom (partitionPhase pivots (localsOf data k) k) p d : List Rec) :
          Multiset Rec)) =
      (((localsOf data k).getD p [] : List Rec) : Multiset Rec) := by
    intro p hp
    rw [Finset.sum_congr rfl fun d hd =>
      congrArg (fun l : List Rec => (l : Multiset Rec))
        (recvFrom_partition pivots (localsOf data k) k p d
          (by rw [hlen]; exact Finset.mem_range.mp hp) (Finset.mem_range.mp hd))]
    exact sum_filter_dest pivots k _ fun r _ => hdest r
  rw [Finset.sum_congr rfl hstep]
  have h2 := sum_getD_coe (localsOf data k)
  rw [hlen] at h2
  exact h2

theorem finalSortPhase_flatten_perm (parts : List (List Rec)) :
    (finalSortPhase parts).flatten.Perm parts.flatten := by
  rw [finalSortPhase_eq_localSortPhase]
  exact localSortPhase_flatten_perm parts

/-! ### Success of pivot selection on a nonempty dataset -/

theorem shareCount_zero_pos (n k : Nat) (hn : 0 < n) (hk : 0 < k) :
    0 < shareCount n k 0 := by
  unfold shareCount
  by_cases h : 0 < n % k
  · simp [h]
  · have hmod : n % k = 0 := by omega
    have hdm := Nat.div_add_mod n k
    rcases Nat.eq_zero_or_pos (n / k) with h0 | h0
    · rw [h0, Nat.mul_zero] at hdm; omega
    · simp [hmod]; omega

theorem localsOf_head_ne_nil (data : List Rec) (k : Nat) (hk : 0 < k) (hd : data ≠ []) :
    (localsOf data k).getD 0 [] ≠ [] := by
  have hn : 0 < data.length := List.length_pos.mpr hd
  obtain ⟨rest, hrange⟩ : ∃ rest, List.range k = 0 :: rest := by
    cases k with
    | zero => omega
    | succ k => exact ⟨List.map Nat.succ (List.range k), List.range_succ_eq_map k⟩
  unfold localsOf localSortPhase scatterPhase
  rw [hrange]
  simp only [List.map_cons, chunksBy, List.getD_cons_zero]
  intro he
  have hlen := congrArg List.length he
  rw [List.length_insertionSort, List.length_take] at hlen
  have := shareCount_zero_pos data.length k hn hk
  rw [Nat.min_def] at hlen
  simp only [List.length_nil] at hlen
  split at hlen <;> omega

theorem gathered_ne_nil (data : List Rec) (k : Nat) (hk : 2 ≤ k) (hd : data ≠ []) :
    gatherSamples (samplePhase (localsOf data k) (k - 1)) ≠ [] := by
  intro he
  unfold gatherSamples at he
  rw [List.flatten_eq_nil_iff] at he
  have hlen : (localsOf data k).length = k := localsOf_length data k
  have hmem : (localsOf data k).getD 0 [] ∈ localsOf data k := by
    rw [List.getD_eq_getElem?_getD, List.getElem?_eq_getElem (by omega)]
    simp only [Option.getD_some]
    exact List.getElem_mem _
  have hmem2 : localSamples ((localsOf data k).getD 0 []) (k - 1) ∈
      samplePhase (localsOf data k) (k - 1) :=
    List.mem_map_of_mem _ hmem
  have hzero := he _ hmem2
  have hne := localsOf_head_ne_nil data k (by omega) hd
  have hcount := localSamples_length _ (k - 1) hne
  rw [hzero] at hcount
  simp at hcount
  omega

theorem pivotsOf_some (data : List Rec) (k : Nat) (hk : 0 < k)
    (h : data ≠ [] ∨ k = 1) : ∃ pivots, pivotsOf data k = some pivots := by
  rcases h with hd | h1
  · by_cases hk2 : 2 ≤ k
    · unfold pivotsOf
      exact select_pivots_some _ k (gathered_ne_nil data k hk2 hd)
    · have hk1 : k = 1 := by omega
      subst hk1
      exact ⟨[], rfl⟩
  · subst h1
    exact ⟨[], rfl⟩

/-! ### Sortedness of the gathered output -/

theorem dest_of_mem_recvFrom (pivots : List Rec) (parts : List (List Rec)) (k p d : Nat)
    (hp : p < parts.length) (hd : d < k) (r : Rec)
    (hr : r ∈ recvFrom (partitionPhase pivots parts k) p d) : dest pivots r = d := by
  rw [recvFrom_partition pivots parts k p d hp hd] at hr
  have h := List.mem_filter.mp hr
  simpa using h.2

theorem dest_of_mem_exchRow (pivots : List Rec) (parts : List (List Rec)) (k d : Nat)
    (hparts : parts.length = k) (hd : d < k) (r : Rec)
    (hr : r ∈ exchRow (partitionPhase pivots parts k) k d) : dest pivots r = d := by
  unfold exchRow at hr
  rcases List.mem_append.mp hr with h1 | h2
  · exact dest_of_mem_recvFrom pivots parts k d d (by omega) hd r h1
  · rw [List.mem_flatten] at h2
    obtain ⟨l, hl, hrl⟩ := h2
    rw [List.mem_map] at hl
    obtain ⟨p, hp, hpl⟩ := hl
    rw [List.mem_range] at hp
    by_cases hpd : p = d
    · rw [← hpl, if_pos hpd] at hrl
      simp at hrl
    · rw [← hpl, if_neg hpd] at hrl
      exact dest_of_mem_recvFrom pivots parts k p d (by omega) hd r hrl

theorem output_sorted (pivots : List Rec) (parts : List (List Rec)) (k : Nat)
    (hparts : parts.length = k) :
    List.Sorted (· ≤ ·)
      (gatherPhase (finalSortPhase (exchangePhase (partitionPhase pivots parts k) k))) := by
  unfold gatherPhase
  show List.Pairwise _ _
  rw [List.pairwise_flatten]
  constructor
  · intro l hl
    unfold finalSortPhase at hl
    rw [List.mem_map] at hl
    obtain ⟨l0, _, hl0⟩ := hl
    rw [← hl0]
    exact List.sorted_insertionSort (· ≤ ·) l0
  · unfold finalSortPhase exchangePhase
    rw [List.map_map, List.pairwise_map, List.pairwise_iff_getElem]
    intro i j hi hj hij
    rw [List.length_range] at hi hj
    simp only [List.getElem_range, Function.comp]
    intro x hx y hy
    have hxr := (List.perm_insertionSort (· ≤ ·) _).mem_iff.mp hx
    have hyr := (List.perm_insertionSort (· ≤ ·) _).mem_iff.mp hy
    have hdx := dest_of_mem_exchRow pivots parts k i hparts hi x hxr
    have hdy := dest_of_mem_exchRow pivots parts k j hparts hj y hyr
    exact le_of_dest_lt_dest (by rw [hdx, hdy]; exact hij)

/-! ### C1, C2, C10 -/

/-- Sorted-output and content for the record-level run: for every nonempty
dataset (or k = 1) the record-level pipeline completes and its output is the
non-decreasing rearrangement of the input.  The transmitted run is reduced to
this lemma when no record holds a 0 byte. -/
theorem pipelineOutput_sorted_perm (data : List Rec) (k : Nat) (hk : 1 ≤ k)
    (h : data ≠ [] ∨ k = 1) :
    ∃ out, pipelineOutput data k = some out ∧
      List.Sorted (· ≤ ·) out ∧ out.Perm data := by
  obtain ⟨pivots, hpiv⟩ := pivotsOf_some data k (by omega) h
  refine ⟨gatherPhase (finalSortPhase (exchangePhase
    (partitionPhase pivots (localsOf data k) k) k)), ?_, ?_, ?_⟩
  · unfold pipelineOutput pipeline
    rw [hpiv]
    rfl
  · exact output_sorted pivots (localsOf data k) k (localsOf_length data k)
  · rw [← Multiset.coe_eq_coe]
    unfold gatherPhase
    have h1 : (((finalSortPhase (exchangePhase
        (partitionPhase pivots (localsOf data k) k) k)).flatten : List Rec) : Multiset Rec) =
        (((exchangePhase (partitionPhase pivots (localsOf data k) k) k).flatten : List Rec) :
          Multiset Rec) :=
      Multiset.coe_eq_coe.mpr (finalSortPhase_flatten_perm _)
    rw [h1, exchange_content data k pivots
      (dest_lt_of_pivotsOf data k pivots (by omega) hpiv)]
    exact Multiset.coe_eq_coe.mpr (localsOf_flatten_perm data k (by omega))

/-! ### The transmitted run: codec truncation on every cross-rank transfer -/

theorem xferRec_eq (r : Rec) (h : 0 ∉ r) : xferRec r = r := by
  unfold xferRec encode decode
  have hlen : (r ++ [0]).length = r.length + 1 := by simp
  rw [show ((r.length + 1, r ++ [0]) : Nat × List Nat).2 = r ++ [0] from rfl,
    show ((r.length + 1, r ++ [0]) : Nat × List Nat).1 = r.length + 1 from rfl,
    ← hlen, List.take_length, takeWhile_append_zero r h]

theorem map_xferRec_eq (l : List Rec) (h : ∀ r ∈ l, 0 ∉ r) : l.map xferRec = l := by
  have h2 : l.map xferRec = l.map id :=
    List.map_congr_left fun r hr => xferRec_eq r (h r hr)
  rw [h2, List.map_id]

theorem wireTail_eq (L : List (List Rec)) (h : ∀ l ∈ L, ∀ r ∈ l, 0 ∉ r) :
    wireTail L = L := by
  cases L with
  | nil => rfl
  | cons own rest =>
    show own :: rest.map (fun l => l.map xferRec) = own :: rest
    have h2 : rest.map (fun l => l.map xferRec) = rest.map id :=
      List.map_congr_left fun l hl =>
        map_xferRec_eq l (h l (List.mem_cons_of_mem own hl))
    rw [h2, List.map_id]

theorem mem_of_mem_scatterPhase (data : List Rec) (k : Nat) (hk : 1 ≤ k)
    {l : List Rec} (hl : l ∈ scatterPhase data k) {r : Rec} (hr : r ∈ l) :
    r ∈ data := by
  have h1 : r ∈ (scatterPhase data k).flatten := List.mem_flatten.mpr ⟨l, hl, hr⟩
  rwa [scatterPhase_flatten data k (by omega)] at h1

theorem mem_of_mem_localsOf (data : List Rec) (k : Nat) (hk : 1 ≤ k)
    {l : List Rec} (hl : l ∈ localsOf data k) {r : Rec} (hr : r ∈ l) :
    r ∈ data := by
  have h1 : r ∈ (localsOf data k).flatten := List.mem_flatten.mpr ⟨l, hl, hr⟩
  exact (localsOf_flatten_perm data k (by omega)).mem_iff.mp h1

theorem mem_of_mem_localSamples {l : List Rec} {s : Nat} {x : Rec}
    (hx : x ∈ localSamples l s) : x ∈ l := by
  unfold localSamples at hx
  rw [List.mem_filterMap] at hx
  obtain ⟨j, _, hj⟩ := hx
  obtain ⟨hb, he⟩ := List.getElem?_eq_some_iff.mp hj
  rw [← he]
  exact List.getElem_mem hb

theorem mem_of_select_pivots {g : List Rec} {k : Nat} {ps : List Rec}
    (h : select_pivots g k = some ps) {x : Rec} (hx : x ∈ ps) : x ∈ g := by
  obtain ⟨i, hi, he⟩ := List.mem_iff_getElem.mp hx
  have hlen := select_pivots_length g k ps h
  have hpi := select_pivots_getElem g k ps h i (by omega)
  rw [List.getElem?_eq_getElem hi, he] at hpi
  obtain ⟨hb, hbe⟩ := List.getElem?_eq_some_iff.mp hpi.symm
  rw [← hbe]
  exact (List.perm_insertionSort (· ≤ ·) g).mem_iff.mp (List.getElem_mem hb)

theorem getD_mem_of_lt {α : Type} (L : List (List α)) (p : Nat) (hp : p < L.length) :
    L.getD p [] ∈ L := by
  rw [List.getD_eq_getElem?_getD, List.getElem?_eq_getElem hp]
  simp only [Option.getD_some]
  exact List.getElem_mem hp

theorem mem_of_mem_recvFrom (pivots : List Rec) (parts : List (List Rec)) (k p d : Nat)
    (hp : p < parts.length) (hd : d < k) {r : Rec}
    (hr : r ∈ recvFrom (partitionPhase pivots parts k) p d) :
    r ∈ parts.getD p [] := by
  rw [recvFrom_partition pivots parts k p d hp hd] at hr
  exact (List.mem_filter.mp hr).1

theorem mem_of_mem_exchRow (pivots : List Rec) (parts : List (List Rec)) (k d : Nat)
    (hparts : parts.length = k) (hd : d < k) {r : Rec}
    (hr : r ∈ exchRow (partitionPhase pivots parts k) k d) :
    ∃ p, p < parts.length ∧ r ∈ parts.getD p [] := by
  unfold exchRow at hr
  rcases List.mem_append.mp hr with h1 | h2
  · exact ⟨d, by omega, mem_of_mem_recvFrom pivots parts k d d (by omega) hd h1⟩
  · rw [List.mem_flatten] at h2
    obtain ⟨l, hl, hrl⟩ := h2
    rw [List.mem_map] at hl
    obtain ⟨p, hp, hpl⟩ := hl
    rw [List.mem_range] at hp
    by_cases hpd : p = d
    · rw [← hpl, if_pos hpd] at hrl
      simp at hrl
    · rw [← hpl, if_neg hpd] at hrl
      exact ⟨p, by omega, mem_of_mem_recvFrom pivots parts k p d (by omega) hd hrl⟩

/-- With a single process nothing is ever serialized (the master keeps its
chunk, its own bucket and its own final partition by direct copy), so the
transmitted run coincides with the record-level run definitionally. -/
theorem pipelineOutputWire_one (data : List Rec) :
    pipelineOutputWire data 1 = pipelineOutput data 1 := rfl

/-- When no record of the dataset holds a 0 byte, every record rebuilt by
string(buf.data()) is rebuilt unchanged, and the transmitted run coincides
with the record-level run. -/
theorem pipelineOutputWire_eq (data : List Rec) (k : Nat) (hk : 1 ≤ k)
    (hfree : ∀ r ∈ data, 0 ∉ r) :
    pipelineOutputWire data k = pipelineOutput data k := by
  have hscatter : scatterPhaseWire data k = scatterPhase data k := by
    unfold scatterPhaseWire
    exact wireTail_eq _ fun l hl r hr =>
      hfree r (mem_of_mem_scatterPhase data k hk hl hr)
  have hlocals : localsOfWire data k = localsOf data k := by
    unfold localsOfWire localsOf
    rw [hscatter]
  have hlocfree : ∀ l ∈ localsOf data k, ∀ r ∈ l, 0 ∉ r := fun l hl r hr =>
    hfree r (mem_of_mem_localsOf data k hk hl hr)
  have hsampfree : ∀ l ∈ samplePhase (localsOf data k) (k - 1), ∀ r ∈ l, 0 ∉ r := by
    intro l hl r hr
    unfold samplePhase at hl
    rw [List.mem_map] at hl
    obtain ⟨l0, hl0, he⟩ := hl
    rw [← he] at hr
    exact hlocfree l0 hl0 r (mem_of_mem_localSamples hr)
  have hgather : gatherSamplesWire (samplePhase (localsOfWire data k) (k - 1)) =
      gatherSamples (samplePhase (localsOf data k) (k - 1)) := by
    unfold gatherSamplesWire gatherSamples
    rw [hlocals, wireTail_eq _ hsampfree]
  have hgatherfree : ∀ x ∈ gatherSamples (samplePhase (localsOf data k) (k - 1)),
      0 ∉ x := by
    intro x hx
    unfold gatherSamples at hx
    rw [List.mem_flatten] at hx
    obtain ⟨l, hl, hxl⟩ := hx
    exact hsampfree l hl x hxl
  have hpiv : pivotsOfWire data k = pivotsOf data k := by
    unfold pivotsOfWire pivotsOf
    rw [hgather]
    cases hsel : select_pivots (gatherSamples (samplePhase (localsOf data k) (k - 1))) k with
    | none => rfl
    | some ps =>
      simp only [Option.map_some']
      rw [map_xferRec_eq ps fun x hx => hgatherfree x (mem_of_select_pivots hsel hx)]
  unfold pipelineOutputWire pipelineWire pipelineOutput pipeline
  rw [hpiv, hlocals]
  cases hp : pivotsOf data k with
  | none => rfl
  | some pivots =>
    simp only [Option.map_some']
    congr 1
    have hlen : (localsOf data k).length = k := localsOf_length data k
    have hbfree : ∀ p d, p < k → d < k →
        ∀ r ∈ recvFrom (partitionPhase pivots (localsOf data k) k) p d, 0 ∉ r := by
      intro p d hp2 hd r hr
      have hmem := mem_of_mem_recvFrom pivots (localsOf data k) k p d (by omega) hd hr
      exact hlocfree _ (getD_mem_of_lt (localsOf data k) p (by omega)) r hmem
    have hexch : exchangePhaseWire (partitionPhase pivots (localsOf data k) k) k =
        exchangePhase (partitionPhase pivots (localsOf data k) k) k := by
      unfold exchangePhaseWire exchangePhase
      apply List.map_congr_left
      intro d hd
      rw [List.mem_range] at hd
      unfold exchRowWire exchRow
      congr 1
      congr 1
      apply List.map_congr_left
      intro p hp2
      rw [List.mem_range] at hp2
      by_cases hpd : p = d
      · rw [if_pos hpd, if_pos hpd]
      · rw [if_neg hpd, if_neg hpd]
        exact map_xferRec_eq _ (hbfree p d hp2 hd)
    rw [hexch]
    have hfinfree : ∀ row ∈ finalSortPhase (exchangePhase
        (partitionPhase pivots (localsOf data k) k) k), ∀ r ∈ row, 0 ∉ r := by
      intro row hrow r hr
      unfold finalSortPhase at hrow
      rw [List.mem_map] at hrow
      obtain ⟨row0, hrow0, he⟩ := hrow
      rw [← he] at hr
      have hr0 : r ∈ row0 := (List.perm_insertionSort (· ≤ ·) row0).mem_iff.mp hr
      unfold exchangePhase at hrow0
      rw [List.mem_map] at hrow0
      obtain ⟨d, hd, hde⟩ := hrow0
      rw [List.mem_range] at hd
      rw [← hde] at hr0
      obtain ⟨p, hp2, hmem⟩ :=
        mem_of_mem_exchRow pivots (localsOf data k) k d hlen hd hr0
      exact hlocfree _ (getD_mem_of_lt (localsOf data k) p hp2) r hmem
    unfold gatherPhaseWire gatherPhase
    rw [wireTail_eq _ hfinfree]

/-- C1 counterexample: the claim fails at two concrete inputs.  On the empty
dataset with 2 processes the run dies in pivot selection and writes nothing.
On the dataset with records 0x01 and 0x00 and 2 processes, the record 0x00 is
truncated to the empty record when rank 0 sends it to rank 1
(string(buf.data()) at line 136 stops at the first 0 byte), and the written
sequence is ["", 0x01] — sorted, but not a permutation of the input. -/
theorem C1_counterexample :
    pipelineOutputWire [] 2 = none ∧
      pipelineOutputWire [[1], [0]] 2 = some [[], [1]] ∧
      ¬([[], [1]] : List Rec).Perm [[1], [0]] := by decide

/-- C1 amended: for every process count k ≥ 1 and every dataset such that
k = 1 (no record ever crosses ranks) or the dataset is nonempty and none of
its records contains a 0 byte, the run completes and the record sequence
written to the output file — the concatenation of each process's final sorted
partition, in process-index order — is non-decreasing in byte-wise
lexicographic order and is equal, as a multiset, to the records read from the
input file. -/
theorem C1_output_sorted_perm (data : List Rec) (k : Nat) (hk : 1 ≤ k)
    (h : k = 1 ∨ (data ≠ [] ∧ ∀ r ∈ data, 0 ∉ r)) :
    ∃ out, pipelineOutputWire data k = some out ∧
      List.Sorted (· ≤ ·) out ∧ out.Perm data := by
  rcases h with h1 | ⟨hne, hfree⟩
  · subst h1
    rw [pipelineOutputWire_one]
    exact pipelineOutput_sorted_perm data 1 (by omega) (Or.inr rfl)
  · rw [pipelineOutputWire_eq data k hk hfree]
    exact pipelineOutput_sorted_perm data k hk (Or.inl hne)

/-- C1 amended, witness: the spec's concrete scenario "TT","AA","GG","CC"
(as byte strings) with 2 processes. -/
theorem C1_witness :
    ∃ out, pipelineOutputWire [[84, 84], [65, 65], [71, 71], [67, 67]] 2 = some out ∧
      List.Sorted (· ≤ ·) out ∧
      out.Perm [[84, 84], [65, 65], [71, 71], [67, 67]] :=
  C1_output_sorted_perm [[84, 84], [65, 65], [71, 71], [67, 67]] 2 (by decide)
    (Or.inr ⟨by decide, by decide⟩)

theorem bucket_row_length_sum (pivots : List Rec) (k : Nat)
    (hdest : ∀ r : Rec, dest pivots r < k) (l : List Rec) :
    (((List.range k).map fun d => l.filter fun r => dest pivots r == d).map
      List.length).sum = l.length := by
  rw [← List.length_flatten]
  have hcoe := coe_flatten_range_map k fun d => l.filter fun r => dest pivots r == d
  have hfib := sum_filter_dest pivots k l fun r _ => hdest r
  have heq : ((((List.range k).map fun d =>
      l.filter fun r => dest pivots r == d).flatten : List Rec) : Multiset Rec) =
      (l : Multiset Rec) := by rw [hcoe, hfib]
  exact (Multiset.coe_eq_coe.mp heq).length_eq

/-- C2: with k ≥ 1 processes, the total number of held records equals the
input size after every phase: after the scatter, after the local sort, after
partitioning (summing all buckets of all processes), after the exchange, after
the final sort, and in the gathered output — no phase creates, drops, or
duplicates a record.  The partition/exchange/final/gather conjuncts are stated
for the pivot vector the run computes (the phases only execute when pivot
selection succeeds). -/
theorem C2_conservation (data : List Rec) (k : Nat) (hk : 1 ≤ k) :
    ((scatterPhase data k).map List.length).sum = data.length ∧
      ((localsOf data k).map List.length).sum = data.length ∧
      ∀ pivots, pivotsOf data k = some pivots →
        (((partitionPhase pivots (localsOf data k) k).map fun row =>
            (row.map List.length).sum).sum = data.length ∧
          ((exchangePhase (partitionPhase pivots (localsOf data k) k) k).map
            List.length).sum = data.length ∧
          ((finalSortPhase (exchangePhase
            (partitionPhase pivots (localsOf data k) k) k)).map
            List.length).sum = data.length ∧
          (gatherPhase (finalSortPhase (exchangePhase
            (partitionPhase pivots (localsOf data k) k) k))).length = data.length) := by
  have hscatter : ((scatterPhase data k).map List.length).sum = data.length := by
    rw [← List.length_flatten, scatterPhase_flatten data k (by omega)]
  have hlocals : ((localsOf data k).map List.length).sum = data.length := by
    rw [← List.length_flatten, (localsOf_flatten_perm data k (by omega)).length_eq]
  refine ⟨hscatter, hlocals, ?_⟩
  intro pivots hpiv
  have hdest := dest_lt_of_pivotsOf data k pivots (by omega) hpiv
  have hexch : ((exchangePhase (partitionPhase pivots (localsOf data k) k) k).map
      List.length).sum = data.length := by
    rw [← List.length_flatten,
      (Multiset.coe_eq_coe.mp (exchange_content data k pivots hdest)).length_eq,
      (localsOf_flatten_perm data k (by omega)).length_eq]
  refine ⟨?_, hexch, ?_, ?_⟩
  · have hrows : ((partitionPhase pivots (localsOf data k) k).map fun row =>
        (row.map List.length).sum) = (localsOf data k).map List.length := by
      unfold partitionPhase
      rw [List.map_map]
      exact List.map_congr_left fun l _ => bucket_row_length_sum pivots k hdest l
    rw [hrows]
    exact hlocals
  · rw [← List.length_flatten, (finalSortPhase_flatten_perm _).length_eq,
      List.length_flatten]
    exact hexch
  · unfold gatherPhase
    rw [(finalSortPhase_flatten_perm _).length_eq, List.length_flatten]
    exact hexch

/-- C2, witness: 2 records, 2 processes. -/
theorem C2_witness :
    ((scatterPhase [[1], [0]] 2).map List.length).sum = ([[1], [0]] : List Rec).length ∧
      ((localsOf [[1], [0]] 2).map List.length).sum = ([[1], [0]] : List Rec).length ∧
      ∀ pivots, pivotsOf [[1], [0]] 2 = some pivots →
        (((partitionPhase pivots (localsOf [[1], [0]] 2) 2).map fun row =>
            (row.map List.length).sum).sum = ([[1], [0]] : List Rec).length ∧
          ((exchangePhase (partitionPhase pivots (localsOf [[1], [0]] 2) 2) 2).map
            List.length).sum = ([[1], [0]] : List Rec).length ∧
          ((finalSortPhase (exchangePhase
            (partitionPhase pivots (localsOf [[1], [0]] 2) 2) 2)).map
            List.length).sum = ([[1], [0]] : List Rec).length ∧
          (gatherPhase (finalSortPhase (exchangePhase
            (partitionPhase pivots (localsOf [[1], [0]] 2) 2) 2))).length =
            ([[1], [0]] : List Rec).length) :=
  C2_conservation [[1], [0]] 2 (by decide)

/-- C10: with a single process the run degenerates to the baseline sequential
sorter: the samples are empty, the pivot vector is empty, every record gets
destination 0 and stays local, and the output is the plain lexicographic sort
of the input (the output of sequential_sort in SequentialSort.cpp). -/
theorem C10_single_process_refines_sequential (data : List Rec) :
    pipelineOutput data 1 = some (sequential_sort data) := by
  have hpiv : pivotsOf data 1 = some [] := rfl
  have hr1 : List.range 1 = [0] := rfl
  have hscatter : scatterPhase data 1 = [data] := by
    unfold scatterPhase shareCount
    rw [hr1]
    simp [chunksBy, Nat.mod_one, Nat.div_one, List.take_length]
  have hlocals : localsOf data 1 = [sequential_sort data] := by
    unfold localsOf localSortPhase
    rw [hscatter]
    rfl
  have hfilter : (sequential_sort data).filter (fun r => dest [] r == 0) =
      sequential_sort data :=
    List.filter_eq_self.mpr fun a _ => rfl
  unfold pipelineOutput pipeline
  rw [hpiv]
  simp only [Option.map_some']
  congr 1
  rw [hlocals]
  have hpart : partitionPhase [] [sequential_sort data] 1 = [[sequential_sort data]] := by
    unfold partitionPhase
    rw [hr1]
    simp [hfilter]
  rw [hpart]
  have hexch : exchangePhase [[sequential_sort data]] 1 = [sequential_sort data] := by
    unfold exchangePhase exchRow recvFrom
    rw [hr1]
    simp
  rw [hexch]
  have hfinal : finalSortPhase [sequential_sort data] = [sequential_sort data] := by
    unfold finalSortPhase sequential_sort
    simp [List.Sorted.insertionSort_eq (List.sorted_insertionSort (· ≤ ·) data)]
  rw [hfinal]
  unfold gatherPhase
  simp

/-- C4, witness: two samples, two processes. -/
theorem C4_witness :
    ∃ ps, select_pivots [[2], [1]] 2 = some ps ∧ ps.length = 2 - 1 ∧
      (∀ i < 2 - 1, ps[i]? =
        (List.insertionSort (· ≤ ·) [[2], [1]])[(i + 1) * ([[2], [1]] : List Rec).length / 2]?) ∧
      List.Sorted (· ≤ ·) ps :=
  C4_pivot_selector [[2], [1]] 2 (by decide) (by decide)
